import Mathlib

/-!
Verification of the bocchi fuzzer against its natural-language specification.

Shallow embedding of the Rust sources:
 * `src/fuzz_thread.rs`   — unique-name generation (`get_unique_name`)
 * `src/execution.rs`     — `Hits`, the tracer event loop of `FunctionTracer::run`
 * `src/mutation/binary_level.rs` — the `BitFlip` byte mutator
 * `src/fuzzing.rs` / `src/sample_library.rs` — `Fuzzer::put_in_library`,
   `VectorLibrary::upsert` / `find_existing`
 * `src/sample.rs`         — `TreeNode`, `fold`, `Patch`, `apply_patch`
 * `src/grammar/generation.rs` — the grammar generator
 * `src/grammar/parse.rs`  — the `bytes` rule of the grammar DSL

Randomness is modelled by oracles: every call of the form `rng.gen_range(0..n)`
takes an oracle value `v` and yields `v % n`, `rng.gen::<u8>()` yields `v % 256`,
and a whole run consumes an explicit list of oracle values.  Machine integers
(`usize`, `u8`, `u32`) are modelled as `Nat`; the places where the Rust code can
only be reached with small values are noted at each definition.
-/

namespace FuzzThread

/-- One lowercase hexadecimal digit, the digit `{:x}` prints for a value below 16. -/
def hexChar (n : Nat) : Char :=
  if n < 10 then Char.ofNat (48 + n) else Char.ofNat (87 + n)

/-- Rust `format!("{:x}", b)` for a `u8` value `b`: no zero padding, so a byte
below 16 renders as a single hex digit and larger bytes render as two. -/
def formatHex (b : Nat) : List Char :=
  if b < 16 then [hexChar b] else [hexChar (b / 16), hexChar (b % 16)]

/-- `get_unique_name` from `src/fuzz_thread.rs`: the six drawn `u8` values are the
oracle input; the name is the concatenation of their unpadded `{:x}` renderings. -/
def get_unique_name (bytes : List Nat) : List Char :=
  (bytes.map formatHex).flatten

/-- The lowercase hexadecimal alphabet: a decimal digit or one of `a`-`f`,
stated on code points. -/
def isLowerHexDigit (c : Char) : Prop :=
  (48 ≤ c.toNat ∧ c.toNat ≤ 57) ∨ (97 ≤ c.toNat ∧ c.toNat ≤ 102)

instance : DecidablePred isLowerHexDigit := fun c => by
  unfold isLowerHexDigit; infer_instance

theorem hexChar_lowerHex {n : Nat} (h : n < 16) : isLowerHexDigit (hexChar n) := by
  unfold isLowerHexDigit hexChar
  interval_cases n <;> decide

theorem formatHex_length {b : Nat} (_h : b < 256) :
    (formatHex b).length = 1 ∨ (formatHex b).length = 2 := by
  unfold formatHex
  split <;> simp

theorem formatHex_lowerHex {b : Nat} (h : b < 256) :
    ∀ c ∈ formatHex b, isLowerHexDigit c := by
  unfold formatHex
  split
  next hb =>
    intro c hc
    simp only [List.mem_singleton] at hc
    subst hc
    exact hexChar_lowerHex (by omega)
  next hb =>
    intro c hc
    simp only [List.mem_cons, List.not_mem_nil, or_false] at hc
    rcases hc with hc | hc <;> subst hc
    · exact hexChar_lowerHex (by omega)
    · exact hexChar_lowerHex (Nat.mod_lt _ (by omega))

end FuzzThread

/-- C2 counterexample: the bytes drawn can all be below 16 (for example all zero),
in which case each renders as a single hex digit and the generated name has 6
characters, not 12. -/
theorem c2_counterexample :
    (FuzzThread.get_unique_name [0, 0, 0, 0, 0, 0]).length = 6 ∧
      ¬ (FuzzThread.get_unique_name [0, 0, 0, 0, 0, 0]).length = 12 := by
  decide

/-- C2 (amended): a unique name generated from six random bytes consists of
between 6 and 12 characters (each byte contributes one hex digit when below 16
and two otherwise), and every character is a lowercase hexadecimal digit. -/
theorem c2_unique_name_hex (bytes : List Nat) (hlen : bytes.length = 6)
    (hbyte : ∀ b ∈ bytes, b < 256) :
    6 ≤ (FuzzThread.get_unique_name bytes).length ∧
      (FuzzThread.get_unique_name bytes).length ≤ 12 ∧
      ∀ c ∈ FuzzThread.get_unique_name bytes, FuzzThread.isLowerHexDigit c := by
  refine ⟨?_, ?_, ?_⟩
  · unfold FuzzThread.get_unique_name
    rw [List.length_flatten]
    have h1 : ∀ b ∈ bytes, 1 ≤ (FuzzThread.formatHex b).length := by
      intro b hb
      rcases FuzzThread.formatHex_length (hbyte b hb) with h | h <;> omega
    calc (6 : Nat) = (bytes.map fun _ => 1).sum := by simp [hlen]
      _ ≤ ((bytes.map FuzzThread.formatHex).map List.length).sum := by
          rw [List.map_map]
          exact List.sum_le_sum (fun b hb => h1 b hb)
  · unfold FuzzThread.get_unique_name
    rw [List.length_flatten]
    have : ∀ b ∈ bytes, (FuzzThread.formatHex b).length ≤ 2 := by
      intro b hb
      rcases FuzzThread.formatHex_length (hbyte b hb) with h | h <;> omega
    calc ((bytes.map FuzzThread.formatHex).map List.length).sum
        ≤ (bytes.map fun _ => 2).sum := by
          rw [List.map_map]
          exact List.sum_le_sum (fun b hb => this b hb)
      _ = 2 * bytes.length := by simp [Nat.mul_comm]
      _ = 12 := by rw [hlen]
  · intro c hc
    unfold FuzzThread.get_unique_name at hc
    rw [List.mem_flatten] at hc
    obtain ⟨l, hl, hcl⟩ := hc
    rw [List.mem_map] at hl
    obtain ⟨b, hb, rfl⟩ := hl
    exact FuzzThread.formatHex_lowerHex (hbyte b hb) c hcl

/-- C2 witness: a concrete six-byte draw. -/
theorem c2_unique_name_hex_witness :
    6 ≤ (FuzzThread.get_unique_name [171, 5, 255, 0, 16, 200]).length ∧
      (FuzzThread.get_unique_name [171, 5, 255, 0, 16, 200]).length ≤ 12 ∧
      ∀ c ∈ FuzzThread.get_unique_name [171, 5, 255, 0, 16, 200],
        FuzzThread.isLowerHexDigit c :=
  c2_unique_name_hex [171, 5, 255, 0, 16, 200] (by decide) (by decide)

namespace Execution

/-- `Hits` from `src/execution.rs`: the saturating per-function hit bucket. -/
inductive Hits where
  | once
  | twice
  | many
deriving DecidableEq, Repr

/-- `Hits::inc`. -/
def Hits.inc : Hits → Hits
  | .once => .twice
  | .twice => .many
  | .many => .many

/-- `ExecResult` from `src/execution.rs`. -/
inductive ExecResult where
  | code (c : Int)
  | signal
deriving DecidableEq, Repr

/-- The wait statuses distinguished by the event loop in `FunctionTracer::run`:
`Exited`, `Signaled`, and everything else (breakpoint traps and other stops all
fall into the `_ => {}` arm of the `match`). -/
inductive WaitStatus where
  | exited (code : Int)
  | signaled
  | stopped
deriving DecidableEq, Repr

/-- One wait event as the loop body observes it: the wait status together with
the value `tracer.registers().rip` holds at that iteration. -/
structure Event where
  status : WaitStatus
  rip : Nat
deriving DecidableEq, Repr

/-- The `HashMap<usize, Hits>` trajectory, as an association list with unique
keys (first match wins, like the hash map). -/
abbrev Trajectory := List (Nat × Hits)

/-- `trajectory.entry(k).and_modify(|k| *k = k.inc()).or_default()`: increment
the bucket stored at `k`, inserting the default `Once` when absent; returns the
map together with the value now stored (the `new_value` the loop inspects). -/
def entryIncOrDefault (traj : Trajectory) (k : Nat) : Trajectory × Hits :=
  match traj with
  | [] => ([(k, Hits.once)], Hits.once)
  | (k', h) :: rest =>
    if k' = k then ((k', h.inc) :: rest, h.inc)
    else
      let (rest', v) := entryIncOrDefault rest k
      ((k', h) :: rest', v)

/-- The state threaded through the event loop of `FunctionTracer::run`:
the trajectory, the recorded result, and the absolute addresses passed to
`remove_breakpoint`. -/
structure LoopState where
  trajectory : Trajectory
  result : Option ExecResult
  removed : List Nat
deriving DecidableEq, Repr

/-- One iteration of the `while tracer.cont(..).is_ok()` loop body in
`FunctionTracer::run` (src/execution.rs lines 274-292): record the result on
`Exited`/`Signaled`, then unconditionally update the trajectory at
`rip - base_offset` and remove the breakpoint at the absolute `rip` when the
new bucket value is `Many`. -/
def runStep (baseOffset : Nat) (st : LoopState) (ev : Event) : LoopState :=
  let result :=
    match ev.status with
    | .exited c => some (ExecResult.code c)
    | .signaled => some ExecResult.signal
    | .stopped => st.result
  let adjustedRip := ev.rip - baseOffset
  let (traj, newValue) := entryIncOrDefault st.trajectory adjustedRip
  let removed := if newValue = Hits.many then st.removed ++ [ev.rip] else st.removed
  { trajectory := traj, result := result, removed := removed }

/-- The whole event loop of one tracer run, folded over the observed events. -/
def runLoop (baseOffset : Nat) (events : List Event) : LoopState :=
  events.foldl (runStep baseOffset) { trajectory := [], result := none, removed := [] }

/-- Lookup in the trajectory (first match). -/
def Trajectory.lookup (traj : Trajectory) (k : Nat) : Option Hits :=
  match traj with
  | [] => none
  | (k', h) :: rest => if k' = k then some h else Trajectory.lookup rest k

theorem entryIncOrDefault_lookup (traj : Trajectory) (k : Nat) :
    (entryIncOrDefault traj k).2 =
      match traj.lookup k with
      | none => Hits.once
      | some h => h.inc := by
  induction traj with
  | nil => rfl
  | cons kv rest ih =>
    obtain ⟨k', h⟩ := kv
    by_cases hk : k' = k <;> simp [entryIncOrDefault, Trajectory.lookup, hk, ih]

end Execution

/-- C3 counterexample: a run whose only wait event is the final `Exited` event
still updates the trajectory — the loop body increments the entry at
`rip - base_offset` on every event, the result `match` only selects what is
recorded in `result`.  With base offset 0 and a cached `rip` of 100 the single
`Exited(0)` event leaves the entry `100 ↦ Once` in the trajectory, which the
claim says must stay empty. -/
theorem c3_counterexample :
    (Execution.runLoop 0 [⟨Execution.WaitStatus.exited 0, 100⟩]).trajectory =
        [(100, Execution.Hits.once)] ∧
      (Execution.runLoop 0 [⟨Execution.WaitStatus.exited 0, 100⟩]).trajectory ≠ [] := by
  decide

/-- C3 (amended): during a single tracer run the trajectory hit map is created
or incremented on every wait event, including events that are not breakpoint
traps (in particular the final `Exited` or `Signaled` event, using the `rip`
the cached registers hold there): one loop iteration increments the bucket at
`rip - base_offset` (inserting `Once` when absent, saturating at `Many`), and
exactly when the resulting counter is `Many`, the breakpoint at the absolute
`rip` address is removed. -/
theorem c3_trajectory_updates (base : Nat) (st : Execution.LoopState)
    (ev : Execution.Event) :
    let st' := Execution.runStep base st ev
    let newValue := (Execution.entryIncOrDefault st.trajectory (ev.rip - base)).2
    st'.trajectory = (Execution.entryIncOrDefault st.trajectory (ev.rip - base)).1 ∧
      (newValue =
        match st.trajectory.lookup (ev.rip - base) with
        | none => Execution.Hits.once
        | some h => h.inc) ∧
      (st'.removed = if newValue = Execution.Hits.many
        then st.removed ++ [ev.rip] else st.removed) ∧
      (st'.result =
        match ev.status with
        | .exited c => some (Execution.ExecResult.code c)
        | .signaled => some Execution.ExecResult.signal
        | .stopped => st.result) := by
  refine ⟨rfl, Execution.entryIncOrDefault_lookup _ _, rfl, rfl⟩

namespace BinaryLevel

/-- The patch enum as used by the byte mutators in `src/mutation/binary_level.rs`
(`crate::sample::Patch::Xor { .. }`, `Patch::Erasure { .. }`,
`Patch::Replacement { .. }` — the constructor applications in that file fix the
variants and their fields). -/
inductive Patch where
  | xor (position : Nat) (content : List Nat)
  | erasure (position : Nat) (size : Nat)
  | replacement (position : Nat) (content : List Nat)
deriving DecidableEq, Repr

/-- `get_random_position` from `src/mutation/binary_level.rs`: 0 for an empty
buffer, otherwise `rng.gen_range(0..len)` (oracle value `pos` reduced mod `len`). -/
def get_random_position (buffer : List Nat) (pos : Nat) : Nat :=
  if buffer.isEmpty then 0 else pos % buffer.length

/-- `BitFlip::mutate` from `src/mutation/binary_level.rs` lines 120-140.
Oracle inputs: `k` for `rng.gen_range(0..8)` and `pos` for the position draw.
The emitted patch is `Patch::Xor` whose single-byte content is the mask
`1 << k` itself; position 0 when the input is empty. -/
def bitFlip (reference : List Nat) (k : Nat) (pos : Nat) : Patch :=
  let randomBit := 2 ^ (k % 8)
  if reference.isEmpty then
    Patch.xor 0 [randomBit]
  else
    Patch.xor (get_random_position reference pos) [randomBit]

end BinaryLevel

/-- C7 counterexample: on the one-byte input `[65]` with bit draw `k = 0` and
position draw 0, `BitFlip` emits `Patch::Xor { position := 0, content := [1] }`:
the patch is an `Xor` patch, not a `Replacement` patch, and its content is the
mask `1 << 0 = 1` rather than the XORed byte `65 ^ 1 = 64`. -/
theorem c7_counterexample :
    BinaryLevel.bitFlip [65] 0 0 = BinaryLevel.Patch.xor 0 [1] ∧
      (¬ ∃ p c, BinaryLevel.bitFlip [65] 0 0 = BinaryLevel.Patch.replacement p c) ∧
      ¬ BinaryLevel.bitFlip [65] 0 0 = BinaryLevel.Patch.xor 0 [65 ^^^ 1] := by
  refine ⟨rfl, ?_, by decide⟩
  rintro ⟨p, c, h⟩
  simp [BinaryLevel.bitFlip, BinaryLevel.get_random_position] at h

/-- C7 (amended): for every input byte slice, `BitFlip` picks a random byte
position and a random bit mask `1 << k` with `k ∈ [0,8)`, and emits an `Xor`
patch whose single-byte content is the mask itself (the XOR with the underlying
byte is left to patch application); for an empty input it emits a single-byte
`Xor` patch at offset 0. -/
theorem c7_bitflip (reference : List Nat) (k pos : Nat) (hk : k < 8) :
    (reference = [] →
        BinaryLevel.bitFlip reference k pos = BinaryLevel.Patch.xor 0 [2 ^ k]) ∧
      (reference ≠ [] →
        BinaryLevel.bitFlip reference k pos =
            BinaryLevel.Patch.xor (pos % reference.length) [2 ^ k] ∧
          pos % reference.length < reference.length) := by
  constructor
  · intro h
    subst h
    simp [BinaryLevel.bitFlip, Nat.mod_eq_of_lt hk]
  · intro h
    have hlen : 0 < reference.length := List.length_pos.mpr h
    refine ⟨?_, Nat.mod_lt _ hlen⟩
    simp [BinaryLevel.bitFlip, BinaryLevel.get_random_position, List.isEmpty_iff, h,
      Nat.mod_eq_of_lt hk]

/-- C7 witness: concrete draws on an empty and a non-empty input. -/
theorem c7_bitflip_witness :
    ((([] : List Nat) = [] →
        BinaryLevel.bitFlip [] 3 5 = BinaryLevel.Patch.xor 0 [2 ^ 3]) ∧
      (([] : List Nat) ≠ [] →
        BinaryLevel.bitFlip [] 3 5 = BinaryLevel.Patch.xor (5 % (0 : Nat)) [2 ^ 3] ∧
          5 % ([] : List Nat).length < ([] : List Nat).length)) :=
  c7_bitflip [] 3 5 (by decide)

namespace SampleLibrary

/-- `VectorLibrary` from `src/sample_library.rs` holds parallel vectors `keys`
and `items` that are only ever grown or updated in lockstep; both
`find_existing` and `upsert` walk `keys.iter().zip(items)` looking for the
first entry whose key equals the reference (`RunTrace::get_key` is the
identity).  The library is therefore embedded as that zip: an association list
searched front to back.  (`detailed_traces` plays no role in classification and
is omitted.) -/
abbrev VectorLibrary (K V : Type) := List (K × V)

variable {K V : Type} [DecidableEq K]

/-- `VectorLibrary::find_existing`: first entry with a matching key. -/
def find_existing : VectorLibrary K V → K → Option V
  | [], _ => none
  | (k, v) :: rest, reference =>
    if k = reference then some v else find_existing rest reference

/-- `VectorLibrary::upsert` (src/sample_library.rs lines 74-82): overwrite the
item of the first entry with a matching key, or push a new entry at the end. -/
def upsert : VectorLibrary K V → K → V → VectorLibrary K V
  | [], key, object => [(key, object)]
  | (k, v) :: rest, key, object =>
    if k = key then (k, object) :: rest else (k, v) :: upsert rest key object

/-- `RunResultStatus` from `src/fuzzing.rs`. -/
inductive RunResultStatus where
  | nothing
  | new
  | sizeImprovement
deriving DecidableEq, Repr

/-- `Fuzzer::put_in_library` (src/fuzzing.rs lines 88-114), classifying a tested
sample whose size score is measured by `size`: insert when the trace key is
unseen (`New`); when an entry exists, replace it only when the tested sample's
size score is strictly smaller (`SizeImprovement`), otherwise leave the library
unchanged (`Nothing`). -/
def put_in_library (size : V → Nat) (lib : VectorLibrary K V) (trace : K) (sample : V) :
    RunResultStatus × VectorLibrary K V :=
  match find_existing lib trace with
  | some existing =>
    if size existing > size sample then
      (RunResultStatus.sizeImprovement, upsert lib trace sample)
    else
      (RunResultStatus.nothing, lib)
  | none => (RunResultStatus.new, upsert lib trace sample)

/-- A sequence of `run_once` / `put_seed` classifications: both paths feed the
tested sample through `put_in_library`. -/
def classifySequence (size : V → Nat) (lib : VectorLibrary K V)
    (tested : List (K × V)) : VectorLibrary K V :=
  tested.foldl (fun l kv => (put_in_library size l kv.1 kv.2).2) lib

theorem find_existing_upsert_self (lib : VectorLibrary K V) (key : K) (object : V) :
    find_existing (upsert lib key object) key = some object := by
  induction lib with
  | nil => simp [upsert, find_existing]
  | cons kv rest ih =>
    obtain ⟨k, v⟩ := kv
    by_cases h : k = key <;> simp [upsert, find_existing, h, ih]

theorem find_existing_upsert_other (lib : VectorLibrary K V) (key other : K)
    (object : V) (hne : other ≠ key) :
    find_existing (upsert lib key object) other = find_existing lib other := by
  have hne' : ¬ key = other := fun h => hne h.symm
  induction lib with
  | nil => simp [upsert, find_existing, hne']
  | cons kv rest ih =>
    obtain ⟨k, v⟩ := kv
    by_cases hk : k = key
    · subst hk
      simp [upsert, find_existing, hne']
    · by_cases ho : k = other
      · subst ho
        simp [upsert, find_existing, hk, hne']
      · simp [upsert, find_existing, hk, ho, ih]

/-- One classification step never raises the stored size score at any key, and
never drops an entry. -/
theorem put_in_library_step_mono (size : V → Nat) (lib : VectorLibrary K V)
    (trace : K) (sample : V) (k : K) (e : V)
    (hfind : find_existing lib k = some e) :
    ∃ e', find_existing (put_in_library size lib trace sample).2 k = some e' ∧
      size e' ≤ size e := by
  unfold put_in_library
  by_cases hk : k = trace
  · subst hk
    rw [hfind]
    by_cases hsz : size e > size sample
    · exact ⟨sample, by simp [hsz, find_existing_upsert_self], by omega⟩
    · exact ⟨e, by simp [hsz, hfind], le_refl _⟩
  · cases hex : find_existing lib trace with
    | some existing =>
      by_cases hsz : size existing > size sample
      · exact ⟨e, by simp [hex, hsz, find_existing_upsert_other lib trace k sample hk,
          hfind], le_refl _⟩
      · exact ⟨e, by simp [hex, hsz, hfind], le_refl _⟩
    | none =>
      exact ⟨e, by simp [hex, find_existing_upsert_other lib trace k sample hk, hfind],
        le_refl _⟩

theorem classifySequence_mono (size : V → Nat) (lib : VectorLibrary K V)
    (tested : List (K × V)) (k : K) (e : V)
    (hfind : find_existing lib k = some e) :
    ∃ e', find_existing (classifySequence size lib tested) k = some e' ∧
      size e' ≤ size e := by
  induction tested generalizing lib e with
  | nil => exact ⟨e, hfind, le_refl _⟩
  | cons kv rest ih =>
    obtain ⟨step, hstep, hle⟩ := put_in_library_step_mono size lib kv.1 kv.2 k e hfind
    obtain ⟨fin, hfin, hle2⟩ := ih _ _ hstep
    exact ⟨fin, hfin, le_trans hle2 hle⟩

end SampleLibrary

/-- C1: classification behaviour of `put_in_library` and library monotonicity.
When no entry exists for the trace, the tested sample is inserted with status
`New`; when an entry exists it is replaced exactly when the tested sample's
size score is strictly smaller, with status `SizeImprovement`; otherwise the
status is `Nothing` and the library is unchanged.  Consequently, across any
sequence of `run_once` / `put_seed` classifications the size score of the
exemplar stored for a key never increases. -/
theorem c1_library_monotone {K V : Type} [DecidableEq K] (size : V → Nat)
    (lib : SampleLibrary.VectorLibrary K V) (trace : K) (sample : V) :
    (SampleLibrary.find_existing lib trace = none →
        SampleLibrary.put_in_library size lib trace sample =
          (SampleLibrary.RunResultStatus.new,
            SampleLibrary.upsert lib trace sample) ∧
          SampleLibrary.find_existing
            (SampleLibrary.put_in_library size lib trace sample).2 trace =
            some sample) ∧
      (∀ existing, SampleLibrary.find_existing lib trace = some existing →
        (size sample < size existing →
          SampleLibrary.put_in_library size lib trace sample =
            (SampleLibrary.RunResultStatus.sizeImprovement,
              SampleLibrary.upsert lib trace sample) ∧
            SampleLibrary.find_existing
              (SampleLibrary.put_in_library size lib trace sample).2 trace =
              some sample) ∧
        (¬ size sample < size existing →
          SampleLibrary.put_in_library size lib trace sample =
            (SampleLibrary.RunResultStatus.nothing, lib))) ∧
      (∀ (tested : List (K × V)) (k : K) (e : V),
        SampleLibrary.find_existing lib k = some e →
        ∃ e', SampleLibrary.find_existing
            (SampleLibrary.classifySequence size lib tested) k = some e' ∧
          size e' ≤ size e) := by
  refine ⟨?_, ?_, SampleLibrary.classifySequence_mono size lib⟩
  · intro hnone
    unfold SampleLibrary.put_in_library
    rw [hnone]
    exact ⟨rfl, by simpa [hnone] using
      SampleLibrary.find_existing_upsert_self lib trace sample⟩
  · intro existing hsome
    constructor
    · intro hlt
      have hgt : size existing > size sample := hlt
      unfold SampleLibrary.put_in_library
      rw [hsome]
      dsimp only
      rw [if_pos hgt]
      exact ⟨rfl, by simpa using
        SampleLibrary.find_existing_upsert_self lib trace sample⟩
    · intro hge
      unfold SampleLibrary.put_in_library
      rw [hsome]
      simp only [gt_iff_lt, hge, if_neg, not_false_iff]

/-- C1 witness: a concrete three-step history on natural-number keys and sizes:
insert 5 at key 1 (`New`), fail to replace it with 7 (`Nothing`), replace it
with 3 (`SizeImprovement`). -/
theorem c1_library_monotone_witness :
    (SampleLibrary.find_existing ([] : SampleLibrary.VectorLibrary Nat Nat) 1 =
        none →
      SampleLibrary.put_in_library id [] 1 5 =
        (SampleLibrary.RunResultStatus.new, SampleLibrary.upsert [] 1 5) ∧
        SampleLibrary.find_existing (SampleLibrary.put_in_library id [] 1 5).2 1 =
          some 5) ∧
      (∀ existing, SampleLibrary.find_existing
          ([] : SampleLibrary.VectorLibrary Nat Nat) 1 = some existing →
        (id 5 < id existing →
          SampleLibrary.put_in_library id [] 1 5 =
            (SampleLibrary.RunResultStatus.sizeImprovement,
              SampleLibrary.upsert [] 1 5) ∧
            SampleLibrary.find_existing
              (SampleLibrary.put_in_library id [] 1 5).2 1 = some 5) ∧
        (¬ id 5 < id existing →
          SampleLibrary.put_in_library id [] 1 5 =
            (SampleLibrary.RunResultStatus.nothing, []))) ∧
      (∀ (tested : List (Nat × Nat)) (k : Nat) (e : Nat),
        SampleLibrary.find_existing ([] : SampleLibrary.VectorLibrary Nat Nat) k =
          some e →
        ∃ e', SampleLibrary.find_existing
            (SampleLibrary.classifySequence id [] tested) k = some e' ∧
          id e' ≤ id e) :=
  c1_library_monotone id [] 1 5

namespace SampleModel

/-- The parse-tree node shared by `src/sample.rs` (terminal variant
`Data(Vec<u8>)`) and `src/grammar/generation.rs` (terminal variants `String`,
`HexString`, `Regex`).  The node struct `TreeNode { start, size, item }` and the
item enum are flattened into one inductive; the terminal payload type is a
parameter `τ` so that both files' trees are instances, and `fold` takes the
payload's byte rendering (`Data` bytes, resp. the terminal's stored
string/bytes). -/
inductive TreeNode (τ : Type) where
  | prod (ruleName : String) (productionVariant : Nat) (start size : Nat)
      (items : List (TreeNode τ))
  | data (start size : Nat) (payload : τ)
deriving Repr

/-- The `start` field of a node. -/
def TreeNode.start {τ : Type} : TreeNode τ → Nat
  | .prod _ _ s _ _ => s
  | .data s _ _ => s

/-- The `size` field of a node. -/
def TreeNode.size {τ : Type} : TreeNode τ → Nat
  | .prod _ _ _ z _ => z
  | .data _ z _ => z

variable {τ : Type}

mutual

/-- `TreeNode::fold` (src/sample.rs lines 85-101, identically
src/grammar/generation.rs lines 59-81): DFS that appends every terminal's bytes
to the buffer and sets `start` to the buffer length before the node was
written and `size` to the number of bytes the subtree wrote. -/
def fold (toBytes : τ → List Nat) : TreeNode τ → List Nat → TreeNode τ × List Nat
  | .data _ _ payload, buffer =>
    (.data buffer.length (toBytes payload).length payload, buffer ++ toBytes payload)
  | .prod ruleName variant _ _ items, buffer =>
    let (items', buffer') := foldList toBytes items buffer
    (.prod ruleName variant buffer.length (buffer'.length - buffer.length) items',
      buffer')

/-- The `for item in &mut pa.items { item.fold(buffer) }` loop. -/
def foldList (toBytes : τ → List Nat) :
    List (TreeNode τ) → List Nat → List (TreeNode τ) × List Nat
  | [], buffer => ([], buffer)
  | t :: ts, buffer =>
    let (t', buffer') := fold toBytes t buffer
    let (ts', buffer'') := foldList toBytes ts buffer'
    (t' :: ts', buffer'')

end

/-- `GrammarSample` from `src/sample.rs` / `src/grammar/generation.rs`. -/
structure GrammarSample (τ : Type) where
  tree : TreeNode τ
  folded : List Nat
deriving Repr

/-- `TreeNode::fold_into_sample`: fold into an empty buffer. -/
def fold_into_sample (toBytes : τ → List Nat) (t : TreeNode τ) : GrammarSample τ :=
  let (tree, buf) := fold toBytes t []
  { tree := tree, folded := buf }

mutual

/-- The bytes a subtree writes when folded: its terminals' byte renderings in
DFS (left-to-right) order. -/
def bytesOf (toBytes : τ → List Nat) : TreeNode τ → List Nat
  | .data _ _ payload => toBytes payload
  | .prod _ _ _ _ items => bytesOfList toBytes items

def bytesOfList (toBytes : τ → List Nat) : List (TreeNode τ) → List Nat
  | [] => []
  | t :: ts => bytesOf toBytes t ++ bytesOfList toBytes ts

end

mutual

theorem fold_buffer (toBytes : τ → List Nat) (t : TreeNode τ) (buf : List Nat) :
    (fold toBytes t buf).2 = buf ++ bytesOf toBytes t := by
  match t with
  | .data s z payload => rfl
  | .prod r v s z items =>
    show (foldList toBytes items buf).2 = buf ++ bytesOfList toBytes items
    exact foldList_buffer toBytes items buf

theorem foldList_buffer (toBytes : τ → List Nat) (ts : List (TreeNode τ))
    (buf : List Nat) :
    (foldList toBytes ts buf).2 = buf ++ bytesOfList toBytes ts := by
  match ts with
  | [] => simp [foldList, bytesOfList]
  | t :: rest =>
    show (foldList toBytes rest (fold toBytes t buf).2).2 =
      buf ++ (bytesOf toBytes t ++ bytesOfList toBytes rest)
    rw [foldList_buffer toBytes rest (fold toBytes t buf).2,
      fold_buffer toBytes t buf, List.append_assoc]

end

/-- The size invariant the spec states for folded trees: every production
node's `size` is the sum of its children's sizes, every terminal node's `size`
is the length of its byte rendering. -/
def sizesValid (toBytes : τ → List Nat) : TreeNode τ → Prop
  | .data _ size payload => size = (toBytes payload).length
  | .prod _ _ _ size items =>
    size = (items.map TreeNode.size).sum ∧ ∀ t ∈ items, sizesValid toBytes t

mutual

theorem fold_start_size (toBytes : τ → List Nat) (t : TreeNode τ) (buf : List Nat) :
    (fold toBytes t buf).1.start = buf.length ∧
      (fold toBytes t buf).1.size = (bytesOf toBytes t).length := by
  match t with
  | .data s z payload => exact ⟨rfl, rfl⟩
  | .prod r v s z items =>
    refine ⟨rfl, ?_⟩
    show (foldList toBytes items buf).2.length - buf.length =
      (bytesOfList toBytes items).length
    rw [foldList_buffer toBytes items buf]
    simp

theorem foldList_sizes (toBytes : τ → List Nat) (ts : List (TreeNode τ))
    (buf : List Nat) :
    ((foldList toBytes ts buf).1.map TreeNode.size).sum =
      (bytesOfList toBytes ts).length := by
  match ts with
  | [] => simp [foldList, bytesOfList]
  | t :: rest =>
    show (((fold toBytes t buf).1 ::
        (foldList toBytes rest (fold toBytes t buf).2).1).map TreeNode.size).sum =
      (bytesOf toBytes t ++ bytesOfList toBytes rest).length
    rw [List.map_cons, List.sum_cons,
      foldList_sizes toBytes rest (fold toBytes t buf).2,
      (fold_start_size toBytes t buf).2]
    simp

end

mutual

theorem fold_sizesValid (toBytes : τ → List Nat) (t : TreeNode τ) (buf : List Nat) :
    sizesValid toBytes (fold toBytes t buf).1 := by
  match t with
  | .data s z payload => simp [fold, sizesValid]
  | .prod r v s z items =>
    show sizesValid toBytes (TreeNode.prod r v buf.length
      ((foldList toBytes items buf).2.length - buf.length)
      (foldList toBytes items buf).1)
    unfold sizesValid
    constructor
    · rw [foldList_buffer toBytes items buf, foldList_sizes toBytes items buf]
      simp
    · exact foldList_sizesValid toBytes items buf

theorem foldList_sizesValid (toBytes : τ → List Nat) (ts : List (TreeNode τ))
    (buf : List Nat) :
    ∀ t ∈ (foldList toBytes ts buf).1, sizesValid toBytes t := by
  match ts with
  | [] => intro t ht; simp [foldList] at ht
  | t :: rest =>
    intro u hu
    have : u = (fold toBytes t buf).1 ∨
        u ∈ (foldList toBytes rest (fold toBytes t buf).2).1 := by
      simpa [foldList] using hu
    rcases this with h | h
    · subst h; exact fold_sizesValid toBytes t buf
    · exact foldList_sizesValid toBytes rest (fold toBytes t buf).2 u h

end

end SampleModel

/-- C4: after folding any tree (`fold` / `fold_into_sample`) — for either
terminal payload type, covering both `src/sample.rs` and
`src/grammar/generation.rs` — every production node's size equals the sum of
its children's sizes, every terminal node's size equals the length of its
bytes, the root's `start` is 0, and the root's size equals the length of the
folded buffer. -/
theorem c4_fold_invariants {τ : Type} (toBytes : τ → List Nat)
    (t : SampleModel.TreeNode τ) (buf : List Nat) :
    SampleModel.sizesValid toBytes (SampleModel.fold toBytes t buf).1 ∧
      SampleModel.sizesValid toBytes (SampleModel.fold_into_sample toBytes t).tree ∧
      (SampleModel.fold_into_sample toBytes t).tree.start = 0 ∧
      (SampleModel.fold_into_sample toBytes t).tree.size =
        (SampleModel.fold_into_sample toBytes t).folded.length := by
  refine ⟨SampleModel.fold_sizesValid toBytes t buf,
    SampleModel.fold_sizesValid toBytes t [], ?_, ?_⟩
  · exact (SampleModel.fold_start_size toBytes t []).1
  · show (SampleModel.fold toBytes t []).1.size =
      (SampleModel.fold toBytes t []).2.length
    rw [(SampleModel.fold_start_size toBytes t []).2,
      SampleModel.fold_buffer toBytes t []]
    simp

namespace SampleModel

/-- `Patch` and `PatchKind` from `src/sample.rs`. -/
inductive PatchKind where
  | replacement (content : List Nat)
  | erasure (size : Nat)
  | insertion (content : List Nat)
deriving DecidableEq, Repr

/-- `Patch` from `src/sample.rs`: a byte-level edit at an absolute offset. -/
structure Patch where
  position : Nat
  kind : PatchKind
deriving DecidableEq, Repr

/-- `intersect_intervals` from `src/sample.rs` lines 20-32: `None` when
`first.0 > second.1 || second.0 > first.1` or when the clipped range
`max(first.0, second.0) .. min(first.1, second.1)` is empty, otherwise that
range. -/
def intersect_intervals (first second : Nat × Nat) : Option (Nat × Nat) :=
  if first.1 > second.2 ∨ second.1 > first.2 then none
  else
    let lo := max first.1 second.1
    let hi := min first.2 second.2
    if hi ≤ lo then none else some (lo, hi)

theorem intersect_intervals_bounds {a b c d lo hi : Nat}
    (h : intersect_intervals (a, b) (c, d) = some (lo, hi)) :
    lo = max a c ∧ hi = min b d ∧ a ≤ lo ∧ c ≤ lo ∧ lo < hi ∧ hi ≤ b ∧ hi ≤ d := by
  unfold intersect_intervals at h
  split at h
  · exact absurd h (by simp)
  · dsimp only at h
    split at h
    · exact absurd h (by simp)
    next hlt =>
      simp only [Option.some_inj, Prod.mk.injEq] at h
      obtain ⟨rfl, rfl⟩ := h
      refine ⟨rfl, rfl, le_max_left _ _, le_max_right _ _, by omega,
        min_le_left _ _, min_le_right _ _⟩

end SampleModel

namespace SampleModel

/-- The free function `apply_patch(data, data_pos, patch)` from `src/sample.rs`
lines 131-181, acting on one `Data` node's bytes.  Empty data returns
immediately.  `Replacement` overwrites the slice of `data` covered by the
intersection of the node span with `[position, position + content.len())` by
the matching slice of `content`; `Erasure` drops the slice covered by the
intersection with `[position, position + size)`; `Insertion` splits at
`position` and splices `content` in when `position` lies inside the node span.
The in-place `copy_from_slice` / `split_off` editing is rendered with
`take`/`drop`. -/
def apply_patch (data : List Nat) (dataPos : Nat) (patch : Patch) : List Nat :=
  if data.isEmpty then data
  else
    match patch.kind with
    | .replacement content =>
      match intersect_intervals (dataPos, dataPos + data.length)
          (patch.position, patch.position + content.length) with
      | none => data
      | some (lo, hi) =>
        data.take (lo - dataPos)
          ++ (content.drop (lo - patch.position)).take (hi - lo)
          ++ data.drop (hi - dataPos)
    | .erasure size =>
      match intersect_intervals (dataPos, dataPos + data.length)
          (patch.position, patch.position + size) with
      | none => data
      | some (lo, hi) => data.take (lo - dataPos) ++ data.drop (hi - dataPos)
    | .insertion content =>
      if dataPos ≤ patch.position ∧ patch.position < dataPos + data.length then
        data.take (patch.position - dataPos) ++ content
          ++ data.drop (patch.position - dataPos)
      else data

theorem apply_patch_nil (dataPos : Nat) (patch : Patch) :
    apply_patch [] dataPos patch = [] := by
  simp [apply_patch]

/-- `Replacement` preserves the length of every data node. -/
theorem apply_patch_replacement_length (data : List Nat) (dataPos : Nat)
    (pos : Nat) (content : List Nat) :
    (apply_patch data dataPos ⟨pos, .replacement content⟩).length = data.length := by
  unfold apply_patch
  by_cases hemp : data.isEmpty
  · simp [hemp]
  · simp only [hemp, if_neg, Bool.not_eq_true]
    cases hint : intersect_intervals (dataPos, dataPos + data.length)
        (pos, pos + content.length) with
    | none => rfl
    | some lohi =>
      obtain ⟨lo, hi⟩ := lohi
      obtain ⟨hlo, hhi, h1, h2, h3, h4, h5⟩ := intersect_intervals_bounds hint
      simp only [List.length_append, List.length_take, List.length_drop,
        List.length_take]
      omega

/-- `Erasure` removes the intersection slice, never lengthening the node. -/
theorem apply_patch_erasure_length (data : List Nat) (dataPos : Nat)
    (pos size : Nat) :
    (apply_patch data dataPos ⟨pos, .erasure size⟩).length ≤ data.length := by
  unfold apply_patch
  by_cases hemp : data.isEmpty
  · simp [hemp]
  · simp only [hemp, if_neg, Bool.not_eq_true]
    cases hint : intersect_intervals (dataPos, dataPos + data.length)
        (pos, pos + size) with
    | none => exact le_refl _
    | some lohi =>
      obtain ⟨lo, hi⟩ := lohi
      obtain ⟨hlo, hhi, h1, h2, h3, h4, h5⟩ := intersect_intervals_bounds hint
      simp only [List.length_append, List.length_take, List.length_drop]
      omega

/-- `Insertion` lengthens a node by the content length exactly when the
insertion offset lies inside the node's span (and the node is non-empty). -/
theorem apply_patch_insertion_length (data : List Nat) (dataPos : Nat)
    (pos : Nat) (content : List Nat) :
    (apply_patch data dataPos ⟨pos, .insertion content⟩).length =
      if data ≠ [] ∧ dataPos ≤ pos ∧ pos < dataPos + data.length then
        data.length + content.length
      else data.length := by
  unfold apply_patch
  by_cases hemp : data.isEmpty
  · rw [List.isEmpty_iff] at hemp
    simp [hemp]
  · rw [List.isEmpty_iff] at hemp
    simp only [List.isEmpty_eq_true, hemp, if_neg, not_false_iff]
    by_cases hin : dataPos ≤ pos ∧ pos < dataPos + data.length
    · simp only [hin, and_true, if_pos, hemp, ne_eq, not_false_iff, true_and]
      simp only [List.length_append, List.length_take, List.length_drop]
      omega
    · simp [hin, hemp]

end SampleModel

namespace SampleModel

mutual

/-- Modelled from the spec: `writeout_terminals` is called by
`Sample::apply_patch` in `src/sample.rs` but its definition is absent from the
snapshot; the spec says "Patches are applied per terminal node: for each `Data`
node, compute the intersection of its span with the patch's affected interval;
apply the restricted edit in-place to that node's bytes".  Since the per-node
edit touches only that node's bytes and reads the node's stored `start`, the
loop over the yielded terminals is the map that rewrites every terminal's
payload with `f start payload`. -/
def mapTerminals (f : Nat → τ → τ) : TreeNode τ → TreeNode τ
  | .data start size payload => .data start size (f start payload)
  | .prod ruleName variant start size items =>
    .prod ruleName variant start size (mapTerminalsList f items)

def mapTerminalsList (f : Nat → τ → τ) : List (TreeNode τ) → List (TreeNode τ)
  | [] => []
  | t :: ts => mapTerminals f t :: mapTerminalsList f ts

end

/-- `Sample::apply_patch` from `src/sample.rs` lines 196-206 (for the byte
tree of `src/sample.rs`, whose terminal payload is the byte vector itself):
apply the patch to every terminal's bytes at that terminal's stored `start`,
then re-fold the tree. -/
def Sample.apply_patch (s : GrammarSample (List Nat)) (patch : Patch) :
    GrammarSample (List Nat) :=
  fold_into_sample id
    (mapTerminals (fun start bytes => SampleModel.apply_patch bytes start patch)
      s.tree)

mutual

/-- The structural skeleton of a tree: production rule names, variant indices
and child order, with terminal payloads and all `start`/`size` metadata erased. -/
def shape : TreeNode τ → TreeNode Unit
  | .data _ _ _ => .data 0 0 ()
  | .prod ruleName variant _ _ items => .prod ruleName variant 0 0 (shapeList items)

def shapeList : List (TreeNode τ) → List (TreeNode Unit)
  | [] => []
  | t :: ts => shape t :: shapeList ts

end

mutual

theorem shape_mapTerminals (f : Nat → τ → τ) (t : TreeNode τ) :
    shape (mapTerminals f t) = shape t := by
  match t with
  | .data s z payload => rfl
  | .prod r v s z items =>
    show TreeNode.prod r v 0 0 (shapeList (mapTerminalsList f items)) =
      TreeNode.prod r v 0 0 (shapeList items)
    rw [shapeList_mapTerminalsList f items]

theorem shapeList_mapTerminalsList (f : Nat → τ → τ) (ts : List (TreeNode τ)) :
    shapeList (mapTerminalsList f ts) = shapeList ts := by
  match ts with
  | [] => rfl
  | t :: rest =>
    show shape (mapTerminals f t) :: shapeList (mapTerminalsList f rest) =
      shape t :: shapeList rest
    rw [shape_mapTerminals f t, shapeList_mapTerminalsList f rest]

end

mutual

theorem shape_fold (toBytes : τ → List Nat) (t : TreeNode τ) (buf : List Nat) :
    shape (fold toBytes t buf).1 = shape t := by
  match t with
  | .data s z payload => rfl
  | .prod r v s z items =>
    show TreeNode.prod r v 0 0 (shapeList (foldList toBytes items buf).1) =
      TreeNode.prod r v 0 0 (shapeList items)
    rw [shapeList_foldList toBytes items buf]

theorem shapeList_foldList (toBytes : τ → List Nat) (ts : List (TreeNode τ))
    (buf : List Nat) :
    shapeList (foldList toBytes ts buf).1 = shapeList ts := by
  match ts with
  | [] => rfl
  | t :: rest =>
    show shape (fold toBytes t buf).1 ::
        shapeList (foldList toBytes rest (fold toBytes t buf).2).1 =
      shape t :: shapeList rest
    rw [shape_fold toBytes t buf,
      shapeList_foldList toBytes rest (fold toBytes t buf).2]

end

end SampleModel

/-- C5: for every sample and every patch, applying the patch and re-folding
leaves the tree structure unchanged: the skeleton of production nodes — rule
names, variant indices, left-to-right child order — is identical before and
after; only terminal byte contents and the `start`/`size` offsets can differ
(the skeleton `shape` erases exactly those). -/
theorem c5_patch_preserves_shape (s : SampleModel.GrammarSample (List Nat))
    (patch : SampleModel.Patch) :
    SampleModel.shape (SampleModel.Sample.apply_patch s patch).tree =
      SampleModel.shape s.tree := by
  show SampleModel.shape
      (SampleModel.fold id (SampleModel.mapTerminals _ s.tree) []).1 = _
  rw [SampleModel.shape_fold, SampleModel.shape_mapTerminals]

namespace SampleModel

mutual

/-- The `(start, payload)` pairs of a tree's `Data` terminals in DFS
left-to-right order (the order `fold` writes them and the order the
terminal walk of `Sample::apply_patch` visits them). -/
def terminalsOf : TreeNode τ → List (Nat × τ)
  | .data start _ payload => [(start, payload)]
  | .prod _ _ _ _ items => terminalsOfList items

def terminalsOfList : List (TreeNode τ) → List (Nat × τ)
  | [] => []
  | t :: ts => terminalsOf t ++ terminalsOfList ts

end

mutual

theorem bytesOf_terminals (toBytes : τ → List Nat) (t : TreeNode τ) :
    bytesOf toBytes t = ((terminalsOf t).map (fun q => toBytes q.2)).flatten := by
  match t with
  | .data s z payload => simp [bytesOf, terminalsOf]
  | .prod r v s z items =>
    show bytesOfList toBytes items = _
    rw [show terminalsOf (TreeNode.prod r v s z items) = terminalsOfList items
      from rfl]
    exact bytesOfList_terminals toBytes items

theorem bytesOfList_terminals (toBytes : τ → List Nat) (ts : List (TreeNode τ)) :
    bytesOfList toBytes ts =
      ((terminalsOfList ts).map (fun q => toBytes q.2)).flatten := by
  match ts with
  | [] => rfl
  | t :: rest =>
    show bytesOf toBytes t ++ bytesOfList toBytes rest = _
    rw [show terminalsOfList (t :: rest) = terminalsOf t ++ terminalsOfList rest
      from rfl]
    rw [List.map_append, List.flatten_append, bytesOf_terminals toBytes t,
      bytesOfList_terminals toBytes rest]

end

mutual

theorem terminalsOf_mapTerminals (f : Nat → τ → τ) (t : TreeNode τ) :
    terminalsOf (mapTerminals f t) =
      (terminalsOf t).map (fun q => (q.1, f q.1 q.2)) := by
  match t with
  | .data s z payload => rfl
  | .prod r v s z items =>
    show terminalsOfList (mapTerminalsList f items) = _
    exact terminalsOfList_mapTerminalsList f items

theorem terminalsOfList_mapTerminalsList (f : Nat → τ → τ)
    (ts : List (TreeNode τ)) :
    terminalsOfList (mapTerminalsList f ts) =
      (terminalsOfList ts).map (fun q => (q.1, f q.1 q.2)) := by
  match ts with
  | [] => rfl
  | t :: rest =>
    show terminalsOf (mapTerminals f t) ++
        terminalsOfList (mapTerminalsList f rest) = _
    rw [show terminalsOfList (t :: rest) = terminalsOf t ++ terminalsOfList rest
      from rfl]
    rw [List.map_append, terminalsOf_mapTerminals f t,
      terminalsOfList_mapTerminalsList f rest]

end

mutual

theorem bytesOf_fold (toBytes : τ → List Nat) (t : TreeNode τ) (buf : List Nat) :
    bytesOf toBytes (fold toBytes t buf).1 = bytesOf toBytes t := by
  match t with
  | .data s z payload => rfl
  | .prod r v s z items =>
    show bytesOfList toBytes (foldList toBytes items buf).1 =
      bytesOfList toBytes items
    exact bytesOfList_foldList toBytes items buf

theorem bytesOfList_foldList (toBytes : τ → List Nat) (ts : List (TreeNode τ))
    (buf : List Nat) :
    bytesOfList toBytes (foldList toBytes ts buf).1 = bytesOfList toBytes ts := by
  match ts with
  | [] => rfl
  | t :: rest =>
    show bytesOf toBytes (fold toBytes t buf).1 ++
        bytesOfList toBytes (foldList toBytes rest (fold toBytes t buf).2).1 =
      bytesOf toBytes t ++ bytesOfList toBytes rest
    rw [bytesOf_fold toBytes t buf,
      bytesOfList_foldList toBytes rest (fold toBytes t buf).2]

end

mutual

theorem fold_of_fold (toBytes : τ → List Nat) (t : TreeNode τ)
    (buf c : List Nat) :
    fold toBytes (fold toBytes t buf).1 c = fold toBytes t c := by
  match t with
  | .data s z payload => rfl
  | .prod r v s z items =>
    simp only [fold]
    rw [foldList_of_foldList toBytes items buf c]

theorem foldList_of_foldList (toBytes : τ → List Nat) (ts : List (TreeNode τ))
    (buf c : List Nat) :
    foldList toBytes (foldList toBytes ts buf).1 c = foldList toBytes ts c := by
  match ts with
  | [] => rfl
  | t :: rest =>
    simp only [foldList]
    rw [fold_of_fold toBytes t buf c,
      foldList_of_foldList toBytes rest (fold toBytes t buf).2
        (fold toBytes t c).2]

end

/-- The `(start, length)` spans of a tree's terminals. -/
def spansOf (toBytes : τ → List Nat) (t : TreeNode τ) : List (Nat × Nat) :=
  (terminalsOf t).map (fun q => (q.1, (toBytes q.2).length))

/-- Spans listed consecutively from a given offset: each span starts where the
previous one ended. -/
def chainFrom : Nat → List (Nat × Nat) → Prop
  | _, [] => True
  | off, (st, len) :: rest => st = off ∧ chainFrom (off + len) rest

/-- Total length of a span list. -/
def lenSum (l : List (Nat × Nat)) : Nat := (l.map Prod.snd).sum

theorem chainFrom_append {l1 l2 : List (Nat × Nat)} {off : Nat}
    (h1 : chainFrom off l1) (h2 : chainFrom (off + lenSum l1) l2) :
    chainFrom off (l1 ++ l2) := by
  induction l1 generalizing off with
  | nil => simpa [lenSum] using h2
  | cons q rest ih =>
    obtain ⟨st, len⟩ := q
    obtain ⟨rfl, hrest⟩ := h1
    refine ⟨rfl, ih hrest ?_⟩
    have : st + len + lenSum rest = st + lenSum ((st, len) :: rest) := by
      simp [lenSum]; omega
    rw [this]
    exact h2

theorem lenSum_spansOf (toBytes : τ → List Nat) (t : TreeNode τ) :
    lenSum (spansOf toBytes t) = (bytesOf toBytes t).length := by
  rw [bytesOf_terminals, List.length_flatten]
  unfold lenSum spansOf
  rw [List.map_map, List.map_map]
  rfl

theorem spansOf_list_cons (toBytes : τ → List Nat) (t : TreeNode τ)
    (ts : List (TreeNode τ)) :
    (terminalsOfList (t :: ts)).map (fun q => (q.1, (toBytes q.2).length)) =
      spansOf toBytes t ++
        (terminalsOfList ts).map (fun q => (q.1, (toBytes q.2).length)) := by
  show (terminalsOf t ++ terminalsOfList ts).map _ = _
  rw [List.map_append]
  rfl

mutual

theorem fold_chain (toBytes : τ → List Nat) (t : TreeNode τ) (buf : List Nat) :
    chainFrom buf.length (spansOf toBytes (fold toBytes t buf).1) := by
  match t with
  | .data s z payload => exact ⟨rfl, trivial⟩
  | .prod r v s z items =>
    show chainFrom buf.length ((terminalsOfList (foldList toBytes items buf).1).map
      (fun q => (q.1, (toBytes q.2).length)))
    exact foldList_chain toBytes items buf

theorem foldList_chain (toBytes : τ → List Nat) (ts : List (TreeNode τ))
    (buf : List Nat) :
    chainFrom buf.length ((terminalsOfList (foldList toBytes ts buf).1).map
      (fun q => (q.1, (toBytes q.2).length))) := by
  match ts with
  | [] => exact trivial
  | t :: rest =>
    show chainFrom buf.length
      ((terminalsOfList ((fold toBytes t buf).1 ::
        (foldList toBytes rest (fold toBytes t buf).2).1)).map
          (fun q => (q.1, (toBytes q.2).length)))
    rw [spansOf_list_cons]
    apply chainFrom_append (fold_chain toBytes t buf)
    rw [lenSum_spansOf toBytes (fold toBytes t buf).1, bytesOf_fold toBytes t buf]
    have hb : (fold toBytes t buf).2.length = buf.length + (bytesOf toBytes t).length := by
      rw [fold_buffer]; simp
    rw [← hb]
    exact foldList_chain toBytes rest (fold toBytes t buf).2

end

theorem chain_insertion_sum (pos c : Nat) (l : List (Nat × Nat)) (off : Nat)
    (hchain : chainFrom off l) :
    (l.map (fun q => if q.2 ≠ 0 ∧ q.1 ≤ pos ∧ pos < q.1 + q.2
        then q.2 + c else q.2)).sum =
      lenSum l + (if off ≤ pos ∧ pos < off + lenSum l then c else 0) := by
  induction l generalizing off with
  | nil =>
    simp only [List.map_nil, List.sum_nil, lenSum]
    have : ¬ (off ≤ pos ∧ pos < off) := by omega
    simp [this]
  | cons q rest ih =>
    obtain ⟨st, len⟩ := q
    obtain ⟨rfl, hrest⟩ := hchain
    have hS : lenSum ((st, len) :: rest) = len + lenSum rest := by
      simp [lenSum]
    rw [List.map_cons, List.sum_cons, ih (st + len) hrest, hS]
    split_ifs <;> omega

theorem chain_mem_bound {l : List (Nat × Nat)} {off pos : Nat}
    (hchain : chainFrom off l)
    (hmem : ∃ q ∈ l, q.2 ≠ 0 ∧ q.1 ≤ pos ∧ pos < q.1 + q.2) :
    off ≤ pos ∧ pos < off + lenSum l := by
  induction l generalizing off with
  | nil => simp at hmem
  | cons q rest ih =>
    obtain ⟨st, len⟩ := q
    obtain ⟨rfl, hrest⟩ := hchain
    have hS : lenSum ((st, len) :: rest) = len + lenSum rest := by
      simp [lenSum]
    rw [hS]
    obtain ⟨u, hu, hcond⟩ := hmem
    rcases List.mem_cons.mp hu with h | h
    · subst h
      simp only at hcond
      omega
    · have := ih hrest ⟨u, h, hcond⟩
      omega

theorem fold_into_sample_tree (toBytes : τ → List Nat) (t : TreeNode τ) :
    (fold_into_sample toBytes t).tree = (fold toBytes t []).1 := rfl

theorem fold_into_sample_folded (toBytes : τ → List Nat) (t : TreeNode τ) :
    (fold_into_sample toBytes t).folded = (fold toBytes t []).2 := rfl

/-- The folded buffer of a patched sample is the concatenation of the
per-terminal `apply_patch` results, in DFS order. -/
theorem apply_patch_folded (s : GrammarSample (List Nat)) (p : Patch) :
    (Sample.apply_patch s p).folded =
      ((terminalsOf s.tree).map
        (fun q => SampleModel.apply_patch q.2 q.1 p)).flatten := by
  unfold Sample.apply_patch
  rw [fold_into_sample_folded, fold_buffer, List.nil_append, bytesOf_terminals,
    terminalsOf_mapTerminals, List.map_map]
  rfl

/-- The folded buffer of a folded sample is the concatenation of its tree's
terminal payloads. -/
theorem folded_eq_terminals (t : TreeNode (List Nat)) :
    (fold_into_sample id t).folded =
      ((terminalsOf (fold_into_sample id t).tree).map (fun q => q.2)).flatten := by
  rw [fold_into_sample_folded, fold_buffer, List.nil_append,
    fold_into_sample_tree, ← bytesOf_fold id t [], bytesOf_terminals]
  rfl

end SampleModel

/-- C6: length effects of the three patch kinds on a folded sample.  For every
tree `t` folded into a sample `s`: a `Replacement` patch never changes the
folded length; an `Erasure` patch never increases the folded length, and can
shrink a `Data` node to empty (witnessed by erasing all three bytes of a
three-byte terminal); an `Insertion` patch lengthens the folded output by the
inserted length whenever some (necessarily unique, since folded spans are
consecutive) non-empty terminal's span contains the insertion offset. -/
theorem c6_patch_length_effects (t : SampleModel.TreeNode (List Nat))
    (pos size : Nat) (content : List Nat) :
    ((SampleModel.Sample.apply_patch (SampleModel.fold_into_sample id t)
        ⟨pos, .replacement content⟩).folded.length =
      (SampleModel.fold_into_sample id t).folded.length) ∧
    ((SampleModel.Sample.apply_patch (SampleModel.fold_into_sample id t)
        ⟨pos, .erasure size⟩).folded.length ≤
      (SampleModel.fold_into_sample id t).folded.length) ∧
    ((SampleModel.Sample.apply_patch
        (SampleModel.fold_into_sample id (SampleModel.TreeNode.data 0 0 [1, 2, 3]))
        ⟨0, .erasure 3⟩).folded = []) ∧
    ((∃ q ∈ SampleModel.terminalsOf (SampleModel.fold_into_sample id t).tree,
        q.2 ≠ [] ∧ q.1 ≤ pos ∧ pos < q.1 + q.2.length) →
      (SampleModel.Sample.apply_patch (SampleModel.fold_into_sample id t)
          ⟨pos, .insertion content⟩).folded.length =
        (SampleModel.fold_into_sample id t).folded.length + content.length) := by
  have hfold : (SampleModel.fold_into_sample id t).folded.length =
      ((SampleModel.terminalsOf (SampleModel.fold_into_sample id t).tree).map
        (fun q => q.2.length)).sum := by
    rw [SampleModel.folded_eq_terminals, List.length_flatten, List.map_map]
    rfl
  refine ⟨?_, ?_, by decide, ?_⟩
  · rw [SampleModel.apply_patch_folded, List.length_flatten, List.map_map, hfold]
    exact congrArg List.sum (List.map_congr_left (fun q _ =>
      SampleModel.apply_patch_replacement_length q.2 q.1 pos content))
  · rw [SampleModel.apply_patch_folded, List.length_flatten, List.map_map, hfold]
    apply List.sum_le_sum
    intro q hq
    exact SampleModel.apply_patch_erasure_length q.2 q.1 pos size
  · intro hex
    rw [SampleModel.apply_patch_folded, List.length_flatten, List.map_map, hfold]
    have hpt : ∀ q : Nat × List Nat,
        ((fun l : List Nat => l.length) ∘
          (fun q : Nat × List Nat =>
            SampleModel.apply_patch q.2 q.1 ⟨pos, .insertion content⟩)) q =
        (if q.2.length ≠ 0 ∧ q.1 ≤ pos ∧ pos < q.1 + q.2.length
          then q.2.length + content.length else q.2.length) := by
      intro q
      show (SampleModel.apply_patch q.2 q.1 ⟨pos, .insertion content⟩).length = _
      rw [SampleModel.apply_patch_insertion_length]
      by_cases h : q.2 = []
      · simp [h]
      · have hlen : q.2.length ≠ 0 := by
          simpa [List.length_eq_zero] using h
        by_cases hin : q.1 ≤ pos ∧ pos < q.1 + q.2.length
        · simp [h, hin, hlen]
        · simp [h, hin, hlen]
    have hmapped :
        ((SampleModel.terminalsOf (SampleModel.fold_into_sample id t).tree).map
          ((fun l : List Nat => l.length) ∘
            (fun q : Nat × List Nat =>
              SampleModel.apply_patch q.2 q.1 ⟨pos, .insertion content⟩))).sum =
        ((SampleModel.spansOf id (SampleModel.fold_into_sample id t).tree).map
          (fun q => if q.2 ≠ 0 ∧ q.1 ≤ pos ∧ pos < q.1 + q.2
            then q.2 + content.length else q.2)).sum := by
      unfold SampleModel.spansOf
      rw [List.map_map]
      exact congrArg List.sum (List.map_congr_left (fun q _ => hpt q))
    rw [hmapped]
    have hchain := SampleModel.fold_chain id t []
    rw [← SampleModel.fold_into_sample_tree] at hchain
    simp only [List.length_nil] at hchain
    rw [SampleModel.chain_insertion_sum pos content.length _ 0 hchain]
    have hexspan : ∃ q ∈ SampleModel.spansOf id
        (SampleModel.fold_into_sample id t).tree,
        q.2 ≠ 0 ∧ q.1 ≤ pos ∧ pos < q.1 + q.2 := by
      obtain ⟨q, hq, h1, h2, h3⟩ := hex
      refine ⟨(q.1, q.2.length), ?_, ?_, h2, h3⟩
      · unfold SampleModel.spansOf
        exact List.mem_map.mpr ⟨q, hq, rfl⟩
      · simpa [List.length_eq_zero] using h1
    have hbound := SampleModel.chain_mem_bound hchain hexspan
    rw [if_pos hbound]
    have hlenSum : SampleModel.lenSum
        (SampleModel.spansOf id (SampleModel.fold_into_sample id t).tree) =
      (SampleModel.fold_into_sample id t).folded.length := by
      rw [SampleModel.lenSum_spansOf]
      rw [SampleModel.fold_into_sample_tree, SampleModel.bytesOf_fold]
      rw [SampleModel.fold_into_sample_folded, SampleModel.fold_buffer]
      simp
    rw [hlenSum, hfold]

/-- C6 witness: a single three-byte terminal; replacing within it keeps length
3, erasing never lengthens, and inserting two bytes at offset 1 gives length 5. -/
theorem c6_patch_length_effects_witness :
    (SampleModel.Sample.apply_patch
        (SampleModel.fold_into_sample id (SampleModel.TreeNode.data 0 0 [1, 2, 3]))
        ⟨1, .insertion [9, 9]⟩).folded.length =
      (SampleModel.fold_into_sample id
        (SampleModel.TreeNode.data 0 0 [1, 2, 3])).folded.length + 2 :=
  (c6_patch_length_effects (SampleModel.TreeNode.data 0 0 [1, 2, 3]) 1 0
    [9, 9]).2.2.2 ⟨(0, [1, 2, 3]), by decide, by decide, by decide, by decide⟩

namespace SampleModel

mutual

theorem terminalsOf_fold_snd (toBytes : τ → List Nat) (t : TreeNode τ)
    (buf : List Nat) :
    (terminalsOf (fold toBytes t buf).1).map Prod.snd =
      (terminalsOf t).map Prod.snd := by
  match t with
  | .data s z payload => rfl
  | .prod r v s z items =>
    show (terminalsOfList (foldList toBytes items buf).1).map Prod.snd =
      (terminalsOfList items).map Prod.snd
    exact terminalsOfList_foldList_snd toBytes items buf

theorem terminalsOfList_foldList_snd (toBytes : τ → List Nat)
    (ts : List (TreeNode τ)) (buf : List Nat) :
    (terminalsOfList (foldList toBytes ts buf).1).map Prod.snd =
      (terminalsOfList ts).map Prod.snd := by
  match ts with
  | [] => rfl
  | t :: rest =>
    show (terminalsOf (fold toBytes t buf).1 ++
        terminalsOfList (foldList toBytes rest (fold toBytes t buf).2).1).map
          Prod.snd =
      (terminalsOf t ++ terminalsOfList rest).map Prod.snd
    rw [List.map_append, List.map_append, terminalsOf_fold_snd toBytes t buf,
      terminalsOfList_foldList_snd toBytes rest (fold toBytes t buf).2]

end

mutual

theorem mapTerminals_eq_self (f : Nat → τ → τ) (t : TreeNode τ)
    (h : ∀ q ∈ terminalsOf t, f q.1 q.2 = q.2) :
    mapTerminals f t = t := by
  match t with
  | .data s z payload =>
    show TreeNode.data s z (f s payload) = TreeNode.data s z payload
    rw [h (s, payload) (by simp [terminalsOf])]
  | .prod r v s z items =>
    show TreeNode.prod r v s z (mapTerminalsList f items) = _
    rw [mapTerminalsList_eq_self f items h]

theorem mapTerminalsList_eq_self (f : Nat → τ → τ) (ts : List (TreeNode τ))
    (h : ∀ q ∈ terminalsOfList ts, f q.1 q.2 = q.2) :
    mapTerminalsList f ts = ts := by
  match ts with
  | [] => rfl
  | t :: rest =>
    show mapTerminals f t :: mapTerminalsList f rest = t :: rest
    have hts : ∀ q ∈ terminalsOfList (t :: rest), f q.1 q.2 = q.2 := h
    rw [mapTerminals_eq_self f t (fun q hq => hts q
        (by show q ∈ terminalsOf t ++ _; exact List.mem_append_left _ hq)),
      mapTerminalsList_eq_self f rest (fun q hq => hts q
        (by show q ∈ terminalsOf t ++ _; exact List.mem_append_right _ hq))]

end

/-- Re-folding an already folded tree is the identity on the sample. -/
theorem fold_into_sample_of_fold (toBytes : τ → List Nat) (t : TreeNode τ) :
    fold_into_sample toBytes (fold_into_sample toBytes t).tree =
      fold_into_sample toBytes t := by
  have h : fold toBytes (fold_into_sample toBytes t).tree [] = fold toBytes t [] := by
    rw [fold_into_sample_tree]
    exact fold_of_fold toBytes t [] []
  calc fold_into_sample toBytes (fold_into_sample toBytes t).tree
      = ⟨(fold toBytes (fold_into_sample toBytes t).tree []).1,
          (fold toBytes (fold_into_sample toBytes t).tree []).2⟩ := rfl
    _ = ⟨(fold toBytes t []).1, (fold toBytes t []).2⟩ := by rw [h]
    _ = fold_into_sample toBytes t := rfl

end SampleModel

/-- C10: a folded sample all of whose `Data` nodes are empty folds to the empty
buffer, and applying any patch — `Replacement`, `Erasure` or `Insertion`,
including the replacement-at-0 patches the byte mutators emit for empty input —
returns the sample unchanged (identical tree and identical empty folded bytes),
because `apply_patch` returns immediately on empty data; no patch can grow an
empty sample. -/
theorem c10_empty_sample_patches (t : SampleModel.TreeNode (List Nat))
    (hemp : ∀ q ∈ SampleModel.terminalsOf t, q.2 = ([] : List Nat)) :
    (SampleModel.fold_into_sample id t).folded = [] ∧
      ∀ p : SampleModel.Patch,
        SampleModel.Sample.apply_patch (SampleModel.fold_into_sample id t) p =
          SampleModel.fold_into_sample id t := by
  constructor
  · rw [SampleModel.fold_into_sample_folded, SampleModel.fold_buffer,
      List.nil_append, SampleModel.bytesOf_terminals]
    have : (SampleModel.terminalsOf t).map (fun q => id q.2) =
        (SampleModel.terminalsOf t).map (fun _ => ([] : List Nat)) :=
      List.map_congr_left (fun q hq => by simp [hemp q hq])
    rw [this]
    simp
  · intro p
    unfold SampleModel.Sample.apply_patch
    rw [SampleModel.mapTerminals_eq_self _ _ ?hq]
    · exact SampleModel.fold_into_sample_of_fold id t
    case hq =>
      intro q hq
      have hsnd : q.2 = ([] : List Nat) := by
        have hmem : q.2 ∈ (SampleModel.terminalsOf
            (SampleModel.fold_into_sample id t).tree).map Prod.snd :=
          List.mem_map.mpr ⟨q, hq, rfl⟩
        rw [SampleModel.fold_into_sample_tree,
          SampleModel.terminalsOf_fold_snd] at hmem
        obtain ⟨u, hu, hval⟩ := List.mem_map.mp hmem
        rw [← hval]
        exact hemp u hu
      rw [hsnd]
      exact SampleModel.apply_patch_nil q.1 p

/-- C10 witness: the one-terminal empty sample, patched with a one-byte
replacement at offset 0 (what `BitFlip`-style mutators emit on empty input). -/
theorem c10_empty_sample_patches_witness :
    (SampleModel.fold_into_sample id
        (SampleModel.TreeNode.data 0 0 ([] : List Nat))).folded = [] ∧
      SampleModel.Sample.apply_patch
          (SampleModel.fold_into_sample id
            (SampleModel.TreeNode.data 0 0 ([] : List Nat)))
          ⟨0, .replacement [1]⟩ =
        SampleModel.fold_into_sample id
          (SampleModel.TreeNode.data 0 0 ([] : List Nat)) := by
  have h := c10_empty_sample_patches (SampleModel.TreeNode.data 0 0 [])
    (by intro q hq; simp [SampleModel.terminalsOf] at hq; simp [hq])
  exact ⟨h.1, h.2 ⟨0, .replacement [1]⟩⟩

namespace Generation

/-- `Token` from `src/grammar/parse.rs`.  String payloads are carried as their
byte renderings; a compiled `Regex` is identified by an opaque index, its
sampler being the `rand_regex` crate (outside this repository). -/
inductive Token where
  | identifier (name : String)
  | string (s : List Nat)
  | hex (bytes : List Nat)
  | regex (id : Nat)
  | bytes (min max : Nat)
deriving Repr

/-- The terminal payloads of a generated tree, `TreeNodeItem::String`,
`HexString` and `Regex` from `src/grammar/generation.rs` (the tree structure
itself is `SampleModel.TreeNode`). -/
inductive GenTerminal where
  | str (s : List Nat)
  | hexString (bytes : List Nat)
  | regexStr (s : List Nat)
deriving Repr

/-- Byte rendering of a generated terminal (what its `fold` arm writes). -/
def GenTerminal.render : GenTerminal → List Nat
  | .str s => s
  | .hexString bs => bs
  | .regexStr s => s

/-- A generated tree. -/
abbrev GTree := SampleModel.TreeNode GenTerminal

/-- The RNG oracle: a stream of drawn values.  `rng.gen_range(0..n)` consumes
one value `v` and yields `v % n`; `rng.gen::<u8>()` yields `v % 256`. -/
abbrev Rng := List Nat

/-- Consume one oracle value (0 when the stream is exhausted). -/
def draw : Rng → Nat × Rng
  | [] => (0, [])
  | x :: xs => (x, xs)

/-- `self.grammar.productions.get(name)` — first binding in the production
map.  The Rust code panics when the name is absent, which for validated
grammars cannot happen; the model returns failure there. -/
def getProductions {α : Type} : List (String × α) → String → Option α
  | [], _ => none
  | (k, v) :: rest, name => if k = name then some v else getProductions rest name

/-- `Generator` from `src/grammar/generation.rs`: the grammar (as an ordered
binding list) and the depth limit.  `regexSample` abstracts the embedded
`rand_regex` sampler: given the regex index and one oracle draw it yields the
sampled string's bytes. -/
structure Generator where
  grammar : List (String × List (List Token))
  depth_limit : Nat
  regexSample : Nat → Nat → List Nat

/-- `TreeNodeItem::ProductionApplication(..).into()`: a node whose `start` is 0
and whose `size` is the sum of the children's sizes (`find_tree_span`). -/
def mkProdNode (name : String) (idx : Nat) (items : List GTree) : GTree :=
  .prod name idx 0 ((items.map SampleModel.TreeNode.size).sum) items

/-- One random byte per oracle value. -/
def genBytes : Nat → Rng → List Nat × Rng
  | 0, r => ([], r)
  | n + 1, r =>
    let (v, r1) := draw r
    let (bs, r2) := genBytes n r1
    (v % 256 :: bs, r2)

/-- `Generator::generate_byte_sequence` (src/grammar/generation.rs lines
181-187): draw `size = gen_range(min..=max)` then `size` random bytes.
(`gen_range` panics when `min > max`; the model is only meaningful for
`min ≤ max`.) -/
def generate_byte_sequence (min max : Nat) (r : Rng) : List Nat × Rng :=
  let (v, r1) := draw r
  let size := min + v % (max - min + 1)
  genBytes size r1

mutual

/-- `Generator::generate_production` (src/grammar/generation.rs lines 189-217):
look the production up and try up to `remaining_depth` random alternative
draws. -/
def generate_production (g : Generator) (name : String) (d : Nat) (r : Rng) :
    Option GTree × Rng :=
  match getProductions g.grammar name with
  | none => (none, r)
  | some prods => gen_attempts g name prods d d r
termination_by (d, 3, 0)
decreasing_by all_goals (simp [Prod.lex_iff]; try omega)

/-- The `for _ in 0..remaining_depth` retry loop of `generate_production`:
draw `chosen_idx = gen_range(0..productions.len())`, generate every token of
that alternative at depth `d - 1`, and on failure try again with one fewer
attempt remaining. -/
def gen_attempts (g : Generator) (name : String) (prods : List (List Token))
    (d fuel : Nat) (r : Rng) : Option GTree × Rng :=
  match fuel with
  | 0 => (none, r)
  | fuel' + 1 =>
    let (v, r1) := draw r
    let chosenIdx := v % prods.length
    let production := prods.getD chosenIdx []
    match generate_tokens g production (d - 1) r1 with
    | (some sub, r2) => (some (mkProdNode name chosenIdx sub), r2)
    | (none, r2) => gen_attempts g name prods d fuel' r2
termination_by (d, 2, fuel)
decreasing_by all_goals (simp [Prod.lex_iff]; try omega)

/-- The `production.iter().map(|token| self.generate_token(token, d)).collect::
<Result<Vec<_>, _>>()` traversal: generate tokens left to right, stopping at
the first failure. -/
def generate_tokens (g : Generator) (toks : List Token) (d : Nat) (r : Rng) :
    Option (List GTree) × Rng :=
  match toks with
  | [] => (some [], r)
  | tok :: rest =>
    match generate_token g tok d r with
    | (some t, r1) =>
      match generate_tokens g rest d r1 with
      | (some ts, r2) => (some (t :: ts), r2)
      | (none, r2) => (none, r2)
    | (none, r1) => (none, r1)
termination_by (d, 1, toks.length)
decreasing_by all_goals (simp [Prod.lex_iff]; try omega)

/-- `Generator::generate_token` (src/grammar/generation.rs lines 153-174):
an `Identifier` at remaining depth 0 fails and otherwise derives its
production at depth − 1; `String`, `Hex`, `Regex` and `Bytes` terminals always
succeed, building a node with `start = 0` and `size` equal to the rendered
length. -/
def generate_token (g : Generator) (tok : Token) (d : Nat) (r : Rng) :
    Option GTree × Rng :=
  match tok with
  | .identifier i =>
    if d = 0 then (none, r) else generate_production g i (d - 1) r
  | .string s => (some (.data 0 s.length (.str s)), r)
  | .hex h => (some (.data 0 h.length (.hexString h)), r)
  | .regex id =>
    let (v, r1) := draw r
    let s := g.regexSample id v
    (some (.data 0 s.length (.regexStr s)), r1)
  | .bytes min max =>
    let (bs, r1) := generate_byte_sequence min max r
    (some (.data 0 bs.length (.hexString bs)), r1)
termination_by (d, 0, 0)
decreasing_by all_goals (simp [Prod.lex_iff]; try omega)

end

end Generation

namespace Generation

/-- `Generator::generate` (src/grammar/generation.rs lines 122-133): loop until
`generate_production("root", depth_limit)` succeeds, then fold the tree.  The
unbounded `loop` is rendered with an explicit iteration budget: `generate g
fuel r` performs up to `fuel` loop iterations and returns the first success. -/
def generate (g : Generator) : Nat → Rng →
    Option (SampleModel.GrammarSample GenTerminal)
  | 0, _ => none
  | fuel + 1, r =>
    match generate_production g "root" g.depth_limit r with
    | (some tree, _) => some (SampleModel.fold_into_sample GenTerminal.render tree)
    | (none, r1) => generate g fuel r1

mutual

/-- Refinement comparison: `generate_production` as the spec words it — "on
failure retry up to `depth_limit` alternative draws before failing", the retry
budget being the generator's global `depth_limit` rather than the remaining
depth. -/
def spec_generate_production (g : Generator) (name : String) (d : Nat)
    (r : Rng) : Option GTree × Rng :=
  match getProductions g.grammar name with
  | none => (none, r)
  | some prods => spec_gen_attempts g name prods d g.depth_limit r
termination_by (d, 3, 0)
decreasing_by all_goals (simp [Prod.lex_iff]; try omega)

/-- Retry loop of the spec-worded variant: identical to `gen_attempts` except
that the initial budget was `depth_limit`. -/
def spec_gen_attempts (g : Generator) (name : String)
    (prods : List (List Token)) (d fuel : Nat) (r : Rng) : Option GTree × Rng :=
  match fuel with
  | 0 => (none, r)
  | fuel' + 1 =>
    let (v, r1) := draw r
    let chosenIdx := v % prods.length
    let production := prods.getD chosenIdx []
    match spec_generate_tokens g production (d - 1) r1 with
    | (some sub, r2) => (some (mkProdNode name chosenIdx sub), r2)
    | (none, r2) => spec_gen_attempts g name prods d fuel' r2
termination_by (d, 2, fuel)
decreasing_by all_goals (simp [Prod.lex_iff]; try omega)

/-- Token-list traversal of the spec-worded variant. -/
def spec_generate_tokens (g : Generator) (toks : List Token) (d : Nat)
    (r : Rng) : Option (List GTree) × Rng :=
  match toks with
  | [] => (some [], r)
  | tok :: rest =>
    match spec_generate_token g tok d r with
    | (some t, r1) =>
      match spec_generate_tokens g rest d r1 with
      | (some ts, r2) => (some (t :: ts), r2)
      | (none, r2) => (none, r2)
    | (none, r1) => (none, r1)
termination_by (d, 1, toks.length)
decreasing_by all_goals (simp [Prod.lex_iff]; try omega)

/-- Single-token generation of the spec-worded variant. -/
def spec_generate_token (g : Generator) (tok : Token) (d : Nat) (r : Rng) :
    Option GTree × Rng :=
  match tok with
  | .identifier i =>
    if d = 0 then (none, r) else spec_generate_production g i (d - 1) r
  | .string s => (some (.data 0 s.length (.str s)), r)
  | .hex h => (some (.data 0 h.length (.hexString h)), r)
  | .regex id =>
    let (v, r1) := draw r
    let s := g.regexSample id v
    (some (.data 0 s.length (.regexStr s)), r1)
  | .bytes min max =>
    let (bs, r1) := generate_byte_sequence min max r
    (some (.data 0 bs.length (.hexString bs)), r1)
termination_by (d, 0, 0)
decreasing_by all_goals (simp [Prod.lex_iff]; try omega)

end

/-- The two-production grammar `root -> name ; name -> "a" ;` with depth limit
2 distinguishes the source's retry budget from the spec's. -/
def retryTestGenerator : Generator :=
  { grammar := [("root", [[Token.identifier "name"]]),
      ("name", [[Token.string [97]]])],
    depth_limit := 2,
    regexSample := fun _ _ => [] }

end Generation

/-- C8 counterexample: with grammar `root -> name ; name -> "a" ;` and depth
limit 2, the source's `generate_production("root", 2)` fails — the inner
production `name` is reached at remaining depth 0, where the retry loop `for _
in 0..remaining_depth` makes zero draws — while under the claim's reading
(retry up to `depth_limit` times) the same call succeeds, because `name`'s
alternative is a string terminal that always succeeds. -/
theorem c8_counterexample :
    (Generation.generate_production Generation.retryTestGenerator "root" 2
        [0, 0, 0, 0]).1 = none ∧
      (Generation.spec_generate_production Generation.retryTestGenerator "root" 2
        [0, 0, 0, 0]).1.isSome = true := by
  constructor
  · simp [Generation.generate_production, Generation.gen_attempts,
      Generation.generate_tokens, Generation.generate_token,
      Generation.retryTestGenerator, Generation.getProductions, Generation.draw]
  · simp [Generation.spec_generate_production, Generation.spec_gen_attempts,
      Generation.spec_generate_tokens, Generation.spec_generate_token,
      Generation.retryTestGenerator, Generation.getProductions, Generation.draw,
      Generation.mkProdNode]

/-- C8 (amended): random derivation from the grammar.  `generate()` loops until
`generate_production("root", depth_limit)` succeeds; for a production, a random
alternative is drawn (`gen_range(0..alternatives.len())`, the oracle value
reduced mod the alternative count) and each of its tokens is generated with
depth − 1; on failure the alternative draw is retried, the total number of
draws being the production's **remaining depth** (not `depth_limit`: at
remaining depth 0 a production fails without drawing); an `Identifier` token at
remaining depth 0 fails and otherwise derives its production at depth − 1,
while `String`, `Hex`, `Regex` and `Bytes` tokens always succeed. -/
theorem c8_generation_algorithm (g : Generation.Generator) (name i : String)
    (prods : List (List Generation.Token)) (d fuel : Nat) (r : Generation.Rng)
    (s h : List Nat) (rid a b : Nat)
    (hlook : Generation.getProductions g.grammar name = some prods) :
    (Generation.generate g (fuel + 1) r =
      match Generation.generate_production g "root" g.depth_limit r with
      | (some tree, _) =>
        some (SampleModel.fold_into_sample Generation.GenTerminal.render tree)
      | (none, r1) => Generation.generate g fuel r1) ∧
    (Generation.generate_production g name d r =
      Generation.gen_attempts g name prods d d r) ∧
    (Generation.gen_attempts g name prods d 0 r = (none, r)) ∧
    (Generation.gen_attempts g name prods d (fuel + 1) r =
      match Generation.generate_tokens g
          (prods.getD ((Generation.draw r).1 % prods.length) []) (d - 1)
          (Generation.draw r).2 with
      | (some sub, r2) =>
        (some (Generation.mkProdNode name
          ((Generation.draw r).1 % prods.length) sub), r2)
      | (none, r2) => Generation.gen_attempts g name prods d fuel r2) ∧
    (Generation.generate_token g (.identifier i) 0 r = (none, r)) ∧
    (Generation.generate_token g (.identifier i) (d + 1) r =
      Generation.generate_production g i d r) ∧
    (Generation.generate_token g (.string s) d r =
      (some (.data 0 s.length (.str s)), r)) ∧
    (Generation.generate_token g (.hex h) d r =
      (some (.data 0 h.length (.hexString h)), r)) ∧
    ((Generation.generate_token g (.regex rid) d r).1.isSome = true) ∧
    ((Generation.generate_token g (.bytes a b) d r).1.isSome = true) := by
  refine ⟨rfl, ?_, ?_, ?_, ?_, ?_, ?_, ?_, ?_, ?_⟩
  · rw [Generation.generate_production, hlook]
  · rw [Generation.gen_attempts]
  · rw [Generation.gen_attempts]
  · rw [Generation.generate_token]
    simp
  · rw [Generation.generate_token]
    simp
  · rw [Generation.generate_token]
  · rw [Generation.generate_token]
  · rw [Generation.generate_token]
    rcases Generation.draw r with ⟨v, r1⟩
    simp
  · rw [Generation.generate_token]
    unfold Generation.generate_byte_sequence
    rcases Generation.draw r with ⟨v, r1⟩
    simp

/-- C8 witness: the algorithm characterization applied to the concrete grammar
`root -> name ; name -> "a" ;`. -/
theorem c8_generation_algorithm_witness :
    Generation.generate_production Generation.retryTestGenerator "root" 2 [0] =
      Generation.gen_attempts Generation.retryTestGenerator "root"
        [[Generation.Token.identifier "name"]] 2 2 [0] :=
  (c8_generation_algorithm Generation.retryTestGenerator "root" "name"
    [[Generation.Token.identifier "name"]] 2 0 [0] [97] [1] 0 1 2 rfl).2.1

namespace Parse

/-- `['0'..='9']` of the `number` rule in `src/grammar/parse.rs`. -/
def isDigitChar (c : Char) : Bool := 48 ≤ c.toNat && c.toNat ≤ 57

/-- `[' ' | '\r' | '\n' | '\t']` of the whitespace rule `_()`. -/
def isWsChar (c : Char) : Bool :=
  c.toNat = 32 || c.toNat = 13 || c.toNat = 10 || c.toNat = 9

/-- The whitespace rule `_() = [' ' | '\r' | '\n' | '\t']*`: greedily consume
whitespace. -/
def wsP (l : List Char) : List Char := l.dropWhile isWsChar

/-- A literal string in a PEG rule: consume it or fail. -/
def litP : List Char → List Char → Option (List Char)
  | [], input => some input
  | _ :: _, [] => none
  | c :: cs, x :: xs => if x = c then litP cs xs else none

/-- Decimal value of a digit string (Rust `s.parse::<u32>().unwrap()`;
modelled on `Nat`, overflow panics aside). -/
def digitsVal (l : List Char) : Nat :=
  l.foldl (fun acc c => 10 * acc + (c.toNat - 48)) 0

/-- The `number` rule: one or more digits, greedily. -/
def numberP (l : List Char) : Option (Nat × List Char) :=
  let ds := l.takeWhile isDigitChar
  if ds.isEmpty then none
  else some (digitsVal ds, l.dropWhile isDigitChar)

/-- First alternative of the `bytes` rule in `src/grammar/parse.rs` lines
104-107: `"bytes" _ "(" _ n:number() _ ")"`, yielding `(n, n)`. -/
def bytesAlt1 (input : List Char) : Option ((Nat × Nat) × List Char) :=
  (litP "bytes".toList input).bind fun r1 =>
  (litP "(".toList (wsP r1)).bind fun r2 =>
  (numberP (wsP r2)).bind fun nr =>
  (litP ")".toList (wsP nr.2)).bind fun r4 =>
  some ((nr.1, nr.1), r4)

/-- Second alternative of the `bytes` rule, lines 108-114:
`"bytes" _ "(" _ a:number() _ b:number() _ ")"` — the two bounds are separated
by whitespace, not by a comma — rejected with an error unless `a <= b`. -/
def bytesAlt2 (input : List Char) : Option ((Nat × Nat) × List Char) :=
  (litP "bytes".toList input).bind fun r1 =>
  (litP "(".toList (wsP r1)).bind fun r2 =>
  (numberP (wsP r2)).bind fun ar =>
  (numberP (wsP ar.2)).bind fun br =>
  (litP ")".toList (wsP br.2)).bind fun r5 =>
  if ar.1 ≤ br.1 then some ((ar.1, br.1), r5) else none

/-- The `bytes` rule: ordered PEG choice of the two alternatives. -/
def bytes (input : List Char) : Option ((Nat × Nat) × List Char) :=
  match bytesAlt1 input with
  | some res => some res
  | none => bytesAlt2 input

theorem litP_append (pre rest : List Char) : litP pre (pre ++ rest) = some rest := by
  induction pre with
  | nil => rfl
  | cons c cs ih => simp [litP, ih]

theorem takeWhile_all_append (p : Char → Bool) (l1 l2 : List Char)
    (h1 : ∀ c ∈ l1, p c = true)
    (h2 : match l2 with | [] => True | c :: _ => p c = false) :
    (l1 ++ l2).takeWhile p = l1 ∧ (l1 ++ l2).dropWhile p = l2 := by
  induction l1 with
  | nil =>
    simp only [List.nil_append]
    match l2 with
    | [] => simp
    | c :: rest =>
      simp only at h2
      simp [List.takeWhile_cons, List.dropWhile_cons, h2]
  | cons c cs ih =>
    have hc : p c = true := h1 c (by simp)
    have ihs := ih (fun x hx => h1 x (by simp [hx]))
    simp [List.takeWhile_cons, List.dropWhile_cons, hc, ihs.1, ihs.2]

theorem numberP_append (da rest : List Char) (hne : da ≠ [])
    (hdig : ∀ c ∈ da, isDigitChar c = true)
    (hrest : match rest with | [] => True | c :: _ => isDigitChar c = false) :
    numberP (da ++ rest) = some (digitsVal da, rest) := by
  have h := takeWhile_all_append isDigitChar da rest hdig hrest
  unfold numberP
  rw [h.1, h.2]
  simp [List.isEmpty_iff, hne]

theorem wsP_head_not_ws (l : List Char)
    (h : match l with | [] => True | c :: _ => isWsChar c = false) :
    wsP l = l := by
  match l with
  | [] => rfl
  | c :: rest =>
    simp only at h
    simp [wsP, List.dropWhile_cons, h]

theorem digit_not_ws {c : Char} (h : isDigitChar c = true) : isWsChar c = false := by
  simp only [isDigitChar, Bool.and_eq_true, decide_eq_true_eq] at h
  simp only [isWsChar, Bool.or_eq_false_iff, decide_eq_false_iff_not]
  omega

end Parse

namespace Parse

theorem bytesAlt1_fixed (da : List Char) (hne : da ≠ [])
    (hdig : ∀ c ∈ da, isDigitChar c = true) :
    bytesAlt1 ("bytes".toList ++ ('(' :: (da ++ [')']))) =
      some ((digitsVal da, digitsVal da), []) := by
  obtain ⟨c0, da', rfl⟩ := List.exists_cons_of_ne_nil hne
  unfold bytesAlt1
  rw [litP_append "bytes".toList ('(' :: ((c0 :: da') ++ [')']))]
  simp only [Option.some_bind]
  rw [wsP_head_not_ws _ (by show isWsChar '(' = false; decide)]
  rw [show litP "(".toList ('(' :: ((c0 :: da') ++ [')'])) =
    some ((c0 :: da') ++ [')']) from litP_append "(".toList _]
  simp only [Option.some_bind]
  rw [wsP_head_not_ws _ (by
    show isWsChar c0 = false
    exact digit_not_ws (hdig c0 (by simp)))]
  rw [show numberP ((c0 :: da') ++ [')']) =
      some (digitsVal (c0 :: da'), [')']) from
    numberP_append (c0 :: da') [')'] hne hdig (by show isDigitChar ')' = false; decide)]
  simp only [Option.some_bind]
  rw [wsP_head_not_ws _ (by show isWsChar ')' = false; decide)]
  rw [show litP ")".toList [')'] = some [] from rfl]
  simp only [Option.some_bind]

theorem bytesAlt1_pair (da db : List Char) (hnea : da ≠ [])
    (hdiga : ∀ c ∈ da, isDigitChar c = true) (hneb : db ≠ [])
    (hdigb : ∀ c ∈ db, isDigitChar c = true) :
    bytesAlt1 ("bytes".toList ++ ('(' :: (da ++ (' ' :: (db ++ [')']))))) =
      none := by
  obtain ⟨c0, da', rfl⟩ := List.exists_cons_of_ne_nil hnea
  obtain ⟨d0, db', rfl⟩ := List.exists_cons_of_ne_nil hneb
  unfold bytesAlt1
  rw [litP_append "bytes".toList ('(' :: ((c0 :: da') ++ (' ' :: ((d0 :: db') ++ [')']))))]
  simp only [Option.some_bind]
  rw [wsP_head_not_ws _ (by show isWsChar '(' = false; decide)]
  rw [show litP "(".toList ('(' :: ((c0 :: da') ++ (' ' :: ((d0 :: db') ++ [')'])))) =
    some ((c0 :: da') ++ (' ' :: ((d0 :: db') ++ [')']))) from litP_append "(".toList _]
  simp only [Option.some_bind]
  rw [wsP_head_not_ws _ (by
    show isWsChar c0 = false
    exact digit_not_ws (hdiga c0 (by simp)))]
  rw [show numberP ((c0 :: da') ++ (' ' :: ((d0 :: db') ++ [')']))) =
      some (digitsVal (c0 :: da'), ' ' :: ((d0 :: db') ++ [')'])) from
    numberP_append (c0 :: da') (' ' :: ((d0 :: db') ++ [')'])) hnea hdiga
      (by show isDigitChar ' ' = false; decide)]
  simp only [Option.some_bind]
  rw [show wsP (' ' :: ((d0 :: db') ++ [')'])) = (d0 :: db') ++ [')'] by
    show List.dropWhile isWsChar (' ' :: ((d0 :: db') ++ [')'])) = _
    rw [List.dropWhile_cons_of_pos (by decide)]
    exact wsP_head_not_ws _ (by
      show isWsChar d0 = false
      exact digit_not_ws (hdigb d0 (by simp)))]
  rw [show litP ")".toList ((d0 :: db') ++ [')']) = none by
    show litP [')'] (d0 :: (db' ++ [')'])) = none
    have hne0 : ¬ d0 = ')' := by
      intro h
      rw [h] at hdigb
      have := hdigb ')' (by simp)
      simp [isDigitChar] at this
    simp [litP, hne0]]
  simp

theorem bytesAlt2_pair (da db : List Char) (hnea : da ≠ [])
    (hdiga : ∀ c ∈ da, isDigitChar c = true) (hneb : db ≠ [])
    (hdigb : ∀ c ∈ db, isDigitChar c = true) :
    bytesAlt2 ("bytes".toList ++ ('(' :: (da ++ (' ' :: (db ++ [')']))))) =
      if digitsVal da ≤ digitsVal db
        then some ((digitsVal da, digitsVal db), []) else none := by
  obtain ⟨c0, da', rfl⟩ := List.exists_cons_of_ne_nil hnea
  obtain ⟨d0, db', rfl⟩ := List.exists_cons_of_ne_nil hneb
  unfold bytesAlt2
  rw [litP_append "bytes".toList ('(' :: ((c0 :: da') ++ (' ' :: ((d0 :: db') ++ [')']))))]
  simp only [Option.some_bind]
  rw [wsP_head_not_ws _ (by show isWsChar '(' = false; decide)]
  rw [show litP "(".toList ('(' :: ((c0 :: da') ++ (' ' :: ((d0 :: db') ++ [')'])))) =
    some ((c0 :: da') ++ (' ' :: ((d0 :: db') ++ [')']))) from litP_append "(".toList _]
  simp only [Option.some_bind]
  rw [wsP_head_not_ws _ (by
    show isWsChar c0 = false
    exact digit_not_ws (hdiga c0 (by simp)))]
  rw [show numberP ((c0 :: da') ++ (' ' :: ((d0 :: db') ++ [')']))) =
      some (digitsVal (c0 :: da'), ' ' :: ((d0 :: db') ++ [')'])) from
    numberP_append (c0 :: da') (' ' :: ((d0 :: db') ++ [')'])) hnea hdiga
      (by show isDigitChar ' ' = false; decide)]
  simp only [Option.some_bind]
  rw [show wsP (' ' :: ((d0 :: db') ++ [')'])) = (d0 :: db') ++ [')'] by
    show List.dropWhile isWsChar (' ' :: ((d0 :: db') ++ [')'])) = _
    rw [List.dropWhile_cons_of_pos (by decide)]
    exact wsP_head_not_ws _ (by
      show isWsChar d0 = false
      exact digit_not_ws (hdigb d0 (by simp)))]
  rw [show numberP ((d0 :: db') ++ [')']) =
      some (digitsVal (d0 :: db'), [')']) from
    numberP_append (d0 :: db') [')'] hneb hdigb (by show isDigitChar ')' = false; decide)]
  simp only [Option.some_bind]
  rw [wsP_head_not_ws _ (by show isWsChar ')' = false; decide)]
  rw [show litP ")".toList [')'] = some [] from rfl]
  simp only [Option.some_bind]

end Parse

namespace Generation

theorem genBytes_length (n : Nat) (r : Rng) : (genBytes n r).1.length = n := by
  induction n generalizing r with
  | zero => rfl
  | succ k ih =>
    show ((genBytes (k + 1) r).1).length = k + 1
    rcases hdr : draw r with ⟨v, r1⟩
    simp [genBytes, hdr, ih]

theorem generate_byte_sequence_length (minv maxv : Nat) (r : Rng) :
    (generate_byte_sequence minv maxv r).1.length =
      minv + (draw r).1 % (maxv - minv + 1) := by
  unfold generate_byte_sequence
  rcases hdr : draw r with ⟨v, r1⟩
  simp [genBytes_length, hdr]

end Generation

/-- C9 counterexample: the spec's own example `bytes(1,4)` is rejected by the
`bytes` rule — both alternatives fail at the comma — while the whitespace-
separated form `bytes(1 4)` is the accepted two-bound syntax. -/
theorem c9_counterexample :
    Parse.bytes "bytes(1,4)".toList = none ∧
      Parse.bytes "bytes(1 4)".toList = some ((1, 4), []) := by
  constructor <;> rfl

/-- C9 (amended): the `bytes` rule of the grammar DSL accepts `bytes(N)`
(yielding min = max = N) and the whitespace-separated two-bound form
`bytes(A B)` — not the comma form `bytes(1,4)` shown in the spec's example,
which is rejected — failing when A > B; generating a `Bytes` token emits a
byte sequence whose length is `min + draw % (max - min + 1)`, hence exactly N
for `bytes(N)` and within `[A, B]` for the two-bound form. -/
theorem c9_bytes_rule (da db : List Char) (minv maxv n : Nat)
    (r : Generation.Rng)
    (hnea : da ≠ []) (hdiga : ∀ c ∈ da, Parse.isDigitChar c = true)
    (hneb : db ≠ []) (hdigb : ∀ c ∈ db, Parse.isDigitChar c = true)
    (hmm : minv ≤ maxv) :
    (Parse.bytes ("bytes".toList ++ ('(' :: (da ++ [')']))) =
      some ((Parse.digitsVal da, Parse.digitsVal da), [])) ∧
    (Parse.digitsVal da ≤ Parse.digitsVal db →
      Parse.bytes ("bytes".toList ++ ('(' :: (da ++ (' ' :: (db ++ [')']))))) =
        some ((Parse.digitsVal da, Parse.digitsVal db), [])) ∧
    (¬ Parse.digitsVal da ≤ Parse.digitsVal db →
      Parse.bytes ("bytes".toList ++ ('(' :: (da ++ (' ' :: (db ++ [')']))))) =
        none) ∧
    (Parse.bytes "bytes(1,4)".toList = none) ∧
    (minv ≤ (Generation.generate_byte_sequence minv maxv r).1.length ∧
      (Generation.generate_byte_sequence minv maxv r).1.length ≤ maxv) ∧
    ((Generation.generate_byte_sequence n n r).1.length = n) := by
  refine ⟨?_, ?_, ?_, by rfl, ?_, ?_⟩
  · unfold Parse.bytes
    rw [Parse.bytesAlt1_fixed da hnea hdiga]
  · intro hle
    unfold Parse.bytes
    rw [Parse.bytesAlt1_pair da db hnea hdiga hneb hdigb,
      Parse.bytesAlt2_pair da db hnea hdiga hneb hdigb, if_pos hle]
  · intro hgt
    unfold Parse.bytes
    rw [Parse.bytesAlt1_pair da db hnea hdiga hneb hdigb,
      Parse.bytesAlt2_pair da db hnea hdiga hneb hdigb, if_neg hgt]
  · rw [Generation.generate_byte_sequence_length]
    have := Nat.mod_lt (Generation.draw r).1
      (y := maxv - minv + 1) (by omega)
    omega
  · rw [Generation.generate_byte_sequence_length]
    have := Nat.mod_lt (Generation.draw r).1 (y := n - n + 1) (by omega)
    omega

/-- C9 witness: `bytes(12)` and `bytes(3 17)` with a concrete RNG draw. -/
theorem c9_bytes_rule_witness :
    (Parse.bytes ("bytes".toList ++ ('(' :: (['1', '2'] ++ [')']))) =
      some ((Parse.digitsVal ['1', '2'], Parse.digitsVal ['1', '2']), [])) ∧
    (Parse.digitsVal ['1', '2'] ≤ Parse.digitsVal ['3'] →
      Parse.bytes ("bytes".toList ++
          ('(' :: (['1', '2'] ++ (' ' :: (['3'] ++ [')']))))) =
        some ((Parse.digitsVal ['1', '2'], Parse.digitsVal ['3']), [])) ∧
    (¬ Parse.digitsVal ['1', '2'] ≤ Parse.digitsVal ['3'] →
      Parse.bytes ("bytes".toList ++
          ('(' :: (['1', '2'] ++ (' ' :: (['3'] ++ [')']))))) = none) ∧
    (Parse.bytes "bytes(1,4)".toList = none) ∧
    (3 ≤ (Generation.generate_byte_sequence 3 17 [5, 0, 1]).1.length ∧
      (Generation.generate_byte_sequence 3 17 [5, 0, 1]).1.length ≤ 17) ∧
    ((Generation.generate_byte_sequence 7 7 [5, 0, 1]).1.length = 7) :=
  c9_bytes_rule ['1', '2'] ['3'] 3 17 7 [5, 0, 1] (by decide) (by decide)
    (by decide) (by decide) (by decide)
